import Mathlib

/-!
Shallow embedding of the BlockChainGrok block-time downloader (src/main.cpp).

The program fetches pages of block metadata, aggregates them into two ordered
indexes (by height and by time), computes inter-block-time statistics and
exports two CSV files.  The embedding models:
  * Qt ordered maps (QMap) as association lists sorted strictly by key,
    with overwrite-on-duplicate-key insertion;
  * `Fatal(...)` (print + std::exit(1)) as `Except.error` carrying the message;
  * C++ `double` accumulators as exact rationals (ℚ);
  * `qint64` / `int` as `Int`, `unsigned` as `Nat`;
  * the console duplicate diagnostics of `processResults` as `LogEntry` values.
-/

namespace BlockChainGrok

/-- Block record of main.cpp: `height` (unsigned), `hash` (QString),
`time` (qint64 Unix seconds). -/
structure Block where
  height : Nat
  hash : String
  time : Int
deriving DecidableEq

/-- QMap modelled as an association list sorted strictly ascending by key;
`mapInsert` is `map[k] = v`: it overwrites an existing entry for `k`. -/
def mapInsert {α : Type} [LinearOrder α] (k : α) (v : Block) :
    List (α × Block) → List (α × Block)
  | [] => [(k, v)]
  | (k2, v2) :: rest =>
    if k < k2 then (k, v) :: (k2, v2) :: rest
    else if k = k2 then (k, v) :: rest
    else (k2, v2) :: mapInsert k v rest

/-- QMap lookup; `mapGet k m = some v` models `m.contains(k)` being true
with `m[k] == v`. -/
def mapGet {α : Type} [LinearOrder α] (k : α) : List (α × Block) → Option Block
  | [] => none
  | (k2, v2) :: rest => if k = k2 then some v2 else mapGet k rest

/-- QMultiMap::insert: keeps all entries; among equal keys the most recently
inserted one comes first in iteration order. -/
def multiInsert (k : Int) (v : Block) : List (Int × Block) → List (Int × Block)
  | [] => [(k, v)]
  | (k2, v2) :: rest =>
    if k ≤ k2 then (k, v) :: (k2, v2) :: rest
    else (k2, v2) :: multiInsert k v rest

/-- The two non-fatal diagnostic lines `processResults` can print, carrying
the new record and the pre-overwrite old record whose fields they format. -/
inductive LogEntry where
  | dupeHeight (newB oldB : Block)
  | dupeTime (newB oldB : Block)
deriving DecidableEq

/-- Is a log entry the duplicate-height diagnostic? -/
def isDupeHeightLog : LogEntry → Bool
  | .dupeHeight _ _ => true
  | .dupeTime _ _ => false

/-- Is a log entry the duplicate-timestamp diagnostic? -/
def isDupeTimeLog : LogEntry → Bool
  | .dupeHeight _ _ => false
  | .dupeTime _ _ => true

/-- The MainObj state the claims touch: the by-height map `blocks`, the
by-time map `blocksByTime`, the multi map `blocksByTimeMulti`, the
duplicate-timestamp counter `nDupeTimes`, plus the diagnostics emitted so
far (in emission order). -/
structure MainState where
  blocks : List (Nat × Block)
  blocksByTime : List (Int × Block)
  blocksByTimeMulti : List (Int × Block)
  nDupeTimes : Int
  logs : List LogEntry
deriving DecidableEq

/-- State at program start: empty maps, counter 0 (the counter is also reset
to 0 by `getNext` before the first page is fetched). -/
def initState : MainState := ⟨[], [], [], 0, []⟩

/-- One element of the page's "blocks" array, as seen through the QVariant
accessors of `processResults`: the converted `height`/`hash`/`time`/
`main_chain` values, the two numeric-conversion ok flags, and whether the
element's variant map is empty. -/
structure RawRec where
  isEmptyMap : Bool
  height : Nat
  heightOk : Bool
  hash : String
  time : Int
  timeOk : Bool
  mainChain : Bool
deriving DecidableEq

/-- A well-formed main-chain array element carrying block `b`. -/
def rawOf (b : Block) : RawRec := ⟨false, b.height, true, b.hash, b.time, true, true⟩

/-- Body of the per-element loop of `MainObj::processResults`: fatal if the
element's map is empty; silently skip (`continue`) if `main_chain` is false;
fatal if the height or time conversion failed; otherwise log duplicate
height / duplicate timestamp (incrementing `nDupeTimes` for the latter) and
insert into the three maps (overwriting on key collision). -/
def processRec (st : MainState) (r : RawRec) : Except String MainState :=
  if r.isEmptyMap then .error "variantMap is empty"
  else
    let b : Block := ⟨r.height, r.hash, r.time⟩
    if !r.mainChain then .ok st
    else if !r.heightOk || !r.timeOk then .error "Parse error"
    else
      let logs1 :=
        match mapGet b.height st.blocks with
        | some old => st.logs ++ [LogEntry.dupeHeight b old]
        | none => st.logs
      let logs2 :=
        match mapGet b.time st.blocksByTime with
        | some old => logs1 ++ [LogEntry.dupeTime b old]
        | none => logs1
      let nDupe :=
        match mapGet b.time st.blocksByTime with
        | some _ => st.nDupeTimes + 1
        | none => st.nDupeTimes
      .ok { blocks := mapInsert b.height b st.blocks
            blocksByTime := mapInsert b.time b st.blocksByTime
            blocksByTimeMulti := multiInsert b.time b st.blocksByTimeMulti
            nDupeTimes := nDupe
            logs := logs2 }

/-- The element loop of `processResults`: a `Fatal` in any element aborts
the whole run at once. -/
def processList : MainState → List RawRec → Except String MainState
  | st, [] => .ok st
  | st, r :: rest =>
    match processRec st r with
    | .error e => .error e
    | .ok st1 => processList st1 rest

/-- A parsed JSON document as consumed by `processResults`: either not an
object, or an object whose "blocks" key is absent (`none`) or holds an
array of elements (a non-array "blocks" value reads as the empty list via
QVariant::toList). -/
inductive Page where
  | notObject
  | obj (blocksField : Option (List RawRec))

/-- `MainObj::processResults` on one page: fatal when the document is not an
object or the "blocks" array is absent or empty; otherwise the element loop. -/
def processResults (st : MainState) (p : Page) : Except String MainState :=
  match p with
  | .notObject => .error "Unknown Json type"
  | .obj none => .error "Blocks array not found"
  | .obj (some l) =>
    if l.isEmpty then .error "Blocks array not found"
    else processList st l

/-- 24 hours in milliseconds (`aday_ms` in `getNext`). -/
def aday_ms : Int := 60 * 60 * 24 * 1000

/-- `MainObj::getNext`: the millisecond timestamp the request URL is anchored
at, paired with the state after the side effect of the empty-index branch
(which resets `nDupeTimes` to 0).  `now` is
`QDateTime::currentMSecsSinceEpoch()`; when the by-time index is non-empty
the anchor is `blocksByTime.first().time * 1000 - aday_ms`, where `first()`
is the value stored at the smallest key. -/
def getNext (now : Int) (st : MainState) : Int × MainState :=
  match st.blocksByTime with
  | [] => (now, { st with nDupeTimes := 0 })
  | (_, b) :: _ => (b.time * 1000 - aday_ms, st)

/-- `LONG_MAX` of the LP64 platform the tool targets, used as the
minimum-delta sentinel in `printStatsAndExit`. -/
def LONG_MAX : Int := 2 ^ 63 - 1

/-- `mycutoff` in `printStatsAndExit`: 7.5 minutes in seconds. -/
def mycutoff : Int := 7 * 60 + 30

/-- Loop accumulator of `printStatsAndExit` (`avg`, `last`, `min`, `max`,
`cutoffdeltasums`, `nsums`); the C++ `double avg` is modelled as ℚ. -/
structure StatsAcc where
  avg : ℚ
  last : Int
  min : Int
  max : Int
  cutoffdeltasums : Int
  nsums : Int
deriving DecidableEq

/-- Initial accumulator: `last = -1`, `min = nDupeTimes ? 0 : LONG_MAX`,
`max = -1`, sums 0. -/
def initAcc (nDupeTimes : Int) : StatsAcc :=
  ⟨0, -1, if nDupeTimes ≠ 0 then 0 else LONG_MAX, -1, 0, 0⟩

/-- One iteration of the stats loop of `printStatsAndExit`: when a previous
time is available (`last > -1`) compute `delta = b.time - last`; `Fatal` on a
negative delta, otherwise accumulate `avg += delta / nBlocks` (guarding a
zero denominator), track min and max, and for `delta >= mycutoff` accumulate
the overage sum and count; finally `last = b.time`. -/
def statsStep (nBlocks : Int) (acc : StatsAcc) (b : Block) : Except String StatsAcc :=
  if acc.last > -1 then
    let delta := b.time - acc.last
    if delta < 0 then .error "negative delta"
    else
      let acc1 := { acc with
        avg := acc.avg + (delta : ℚ) / (if nBlocks > 0 then (nBlocks : ℚ) else 1)
        min := if delta < acc.min then delta else acc.min
        max := if delta > acc.max then delta else acc.max }
      let acc2 :=
        if delta ≥ mycutoff then
          { acc1 with cutoffdeltasums := acc1.cutoffdeltasums + (delta - mycutoff)
                      nsums := acc1.nsums + 1 }
        else acc1
      .ok { acc2 with last := b.time }
  else .ok { acc with last := b.time }

/-- `statsStep` with the `Fatal` branch removed; it coincides with `statsStep`
whenever the computed delta is non-negative (see `statsLoop_eq_pure`). -/
def statsStepPure (nBlocks : Int) (acc : StatsAcc) (b : Block) : StatsAcc :=
  if acc.last > -1 then
    let delta := b.time - acc.last
    let acc1 := { acc with
      avg := acc.avg + (delta : ℚ) / (if nBlocks > 0 then (nBlocks : ℚ) else 1)
      min := if delta < acc.min then delta else acc.min
      max := if delta > acc.max then delta else acc.max }
    let acc2 :=
      if delta ≥ mycutoff then
        { acc1 with cutoffdeltasums := acc1.cutoffdeltasums + (delta - mycutoff)
                    nsums := acc1.nsums + 1 }
      else acc1
    { acc2 with last := b.time }
  else { acc with last := b.time }

/-- The `for (const Block & b : blocksByTime)` loop of `printStatsAndExit`,
over the values of the by-time index in ascending key order. -/
def statsLoop (nBlocks : Int) : StatsAcc → List Block → Except String StatsAcc
  | acc, [] => .ok acc
  | acc, b :: rest =>
    match statsStep nBlocks acc b with
    | .error e => .error e
    | .ok acc1 => statsLoop nBlocks acc1 rest

/-- Error-free reference version of `statsLoop`. -/
def statsLoopPure (nBlocks : Int) : StatsAcc → List Block → StatsAcc
  | acc, [] => acc
  | acc, b :: rest => statsLoopPure nBlocks (statsStepPure nBlocks acc b) rest

/-- The numbers `printStatsAndExit` reports (doubles as exact rationals). -/
structure Stats where
  nBlocks : Int
  avg : ℚ
  min : Int
  max : Int
  cutoffdeltasums : Int
  nsums : Int
deriving DecidableEq

/-- `MainObj::printStatsAndExit` up to the reported statistics:
`nBlocks = blocksByTime.size() + nDupeTimes`, then the single pass over the
by-time values; a `Fatal` (negative delta) aborts the run. -/
def printStatsAndExit (st : MainState) : Except String Stats :=
  (statsLoop ((st.blocksByTime.length : Int) + st.nDupeTimes) (initAcc st.nDupeTimes)
      (st.blocksByTime.map Prod.snd)).map
    fun acc => ⟨(st.blocksByTime.length : Int) + st.nDupeTimes,
      acc.avg, acc.min, acc.max, acc.cutoffdeltasums, acc.nsums⟩

/-- The mean-overage value the final log line prints, before the /60 minute
conversion: `cutoffdeltasums / double(nsums)`. -/
def meanOverage (s : Stats) : ℚ := (s.cutoffdeltasums : ℚ) / (s.nsums : ℚ)

/-- The deltas the stats loop actually computes: one per iteration whose
previous-time sentinel satisfies `last > -1`. -/
def passDeltas (last : Int) : List Block → List Int
  | [] => []
  | b :: rest =>
    if last > -1 then (b.time - last) :: passDeltas b.time rest
    else passDeltas b.time rest

/-- Consecutive time differences of a block list against a given previous
time. -/
def deltasFrom (last : Int) : List Block → List Int
  | [] => []
  | b :: rest => (b.time - last) :: deltasFrom b.time rest

/-- The consecutive timestamp gaps of a block sequence. -/
def gapsOf : List Block → List Int
  | [] => []
  | b :: rest => deltasFrom b.time rest

/-- One data row of blocks_sorted_by_height.csv: `height,time,hash`. -/
def csvRowHeight (b : Block) : String :=
  toString b.height ++ "," ++ toString b.time ++ "," ++ b.hash

/-- One data row of blocks_sorted_by_timestamp.csv: `time,height,hash`. -/
def csvRowTime (b : Block) : String :=
  toString b.time ++ "," ++ toString b.height ++ "," ++ b.hash

/-- File A (blocks_sorted_by_height.csv) as `saveCsv` writes it: header, then
one row per entry of the `blocks` (by-height) map in ascending key order. -/
def fileA (st : MainState) : List String :=
  "#BlockHeight,BlockTimeUTC,BlockHash" :: st.blocks.map (fun p => csvRowHeight p.2)

/-- File B (blocks_sorted_by_timestamp.csv) as `MainObj::saveCsv` actually
writes it: the source's second loop is again `for(const Block & b: blocks)`,
i.e. over the BY-HEIGHT map, not over `blocksByTime`. -/
def fileB (st : MainState) : List String :=
  "#BlockTimeUTC,BlockHeight,BlockHash" :: st.blocks.map (fun p => csvRowTime p.2)

/-- File B as the spec describes it: one row per entry of the by-time index
in ascending time order.  Kept separate from `fileB` (the source behaviour)
to compare the two. -/
def fileBSpec (st : MainState) : List String :=
  "#BlockTimeUTC,BlockHeight,BlockHash" :: st.blocksByTime.map (fun p => csvRowTime p.2)

/-- `MainObj::saveCsv`: the two files, as lists of rows. -/
def saveCsv (st : MainState) : List String × List String := (fileA st, fileB st)

/-- The final phase of the run: compute the statistics, then write the CSV
files; a `Fatal` inside `printStatsAndExit` exits the process before any
statistics line is printed or any file is produced. -/
def finalPhase (st : MainState) : Except String (Stats × List String × List String) :=
  (printStatsAndExit st).map (fun s => (s, fileA st, fileB st))

/-! ### Helper lemmas about the maps and the aggregation loop -/

theorem mapGet_none_of_lt {α : Type} [LinearOrder α] (k : α) :
    ∀ l : List (α × Block), (∀ p ∈ l, p.1 < k) → mapGet k l = none := by
  intro l
  induction l with
  | nil => intro _; rfl
  | cons p rest ih =>
    intro h
    obtain ⟨k2, v2⟩ := p
    have hk2 : k2 < k := h (k2, v2) (List.mem_cons_self _ _)
    simp only [mapGet, if_neg (ne_of_gt hk2)]
    exact ih fun q hq => h q (List.mem_cons_of_mem _ hq)

theorem mapInsert_append_of_lt {α : Type} [LinearOrder α] (k : α) (v : Block) :
    ∀ l : List (α × Block), (∀ p ∈ l, p.1 < k) → mapInsert k v l = l ++ [(k, v)] := by
  intro l
  induction l with
  | nil => intro _; rfl
  | cons p rest ih =>
    intro h
    obtain ⟨k2, v2⟩ := p
    have hk2 : k2 < k := h (k2, v2) (List.mem_cons_self _ _)
    simp only [mapInsert, if_neg (not_lt_of_gt hk2), if_neg (ne_of_gt hk2),
      List.cons_append, List.cons.injEq, true_and]
    exact ih fun q hq => h q (List.mem_cons_of_mem _ hq)

/-- `processRec` on a well-formed main-chain record whose timestamp is new:
the record is inserted into all three maps and the counter is untouched. -/
theorem processRec_rawOf_newTime (st : MainState) (b : Block)
    (h : mapGet b.time st.blocksByTime = none) :
    processRec st (rawOf b) = .ok
      { blocks := mapInsert b.height b st.blocks
        blocksByTime := mapInsert b.time b st.blocksByTime
        blocksByTimeMulti := multiInsert b.time b st.blocksByTimeMulti
        nDupeTimes := st.nDupeTimes
        logs := match mapGet b.height st.blocks with
                | some old => st.logs ++ [LogEntry.dupeHeight b old]
                | none => st.logs } := by
  unfold processRec rawOf
  simp only [h]
  rfl

/-- Records with `main_chain == false` are skipped with no state change,
whatever their ok flags are. -/
theorem processRec_skip (st : MainState) (r : RawRec)
    (hne : r.isEmptyMap = false) (hmain : r.mainChain = false) :
    processRec st r = .ok st := by
  simp [processRec, hne, hmain]

/-- A page whose elements are all non-empty maps with `main_chain == false`
leaves the state unchanged. -/
theorem processList_skip :
    ∀ (recs : List RawRec) (st : MainState),
      (∀ r ∈ recs, r.isEmptyMap = false) → (∀ r ∈ recs, r.mainChain = false) →
      processList st recs = .ok st := by
  intro recs
  induction recs with
  | nil => intro st _ _; rfl
  | cons r rest ih =>
    intro st hne hmain
    simp only [processList,
      processRec_skip st r (hne r (List.mem_cons_self _ _)) (hmain r (List.mem_cons_self _ _))]
    exact ih st (fun q hq => hne q (List.mem_cons_of_mem _ hq))
      (fun q hq => hmain q (List.mem_cons_of_mem _ hq))

/-- Processing a list of well-formed main-chain blocks whose timestamps are
strictly increasing and all larger than every timestamp already in the
by-time index appends them, in order, to the by-time index and leaves the
duplicate-timestamp counter unchanged. -/
theorem processList_incr :
    ∀ (bs : List Block) (st : MainState),
      (∀ p ∈ st.blocksByTime, ∀ b ∈ bs, p.1 < b.time) →
      (bs.map Block.time).Pairwise (· < ·) →
      ∃ st2, processList st (bs.map rawOf) = .ok st2 ∧
        st2.blocksByTime = st.blocksByTime ++ bs.map (fun b => (b.time, b)) ∧
        st2.nDupeTimes = st.nDupeTimes := by
  intro bs
  induction bs with
  | nil => intro st _ _; exact ⟨st, rfl, by simp, rfl⟩
  | cons b rest ih =>
    intro st hlt hpw
    have hbt : ∀ p ∈ st.blocksByTime, p.1 < b.time :=
      fun p hp => hlt p hp b (List.mem_cons_self _ _)
    have hget : mapGet b.time st.blocksByTime = none :=
      mapGet_none_of_lt b.time st.blocksByTime hbt
    have hins : mapInsert b.time b st.blocksByTime = st.blocksByTime ++ [(b.time, b)] :=
      mapInsert_append_of_lt b.time b st.blocksByTime hbt
    simp only [List.map_cons, List.pairwise_cons] at hpw
    set st1 : MainState :=
      { blocks := mapInsert b.height b st.blocks
        blocksByTime := mapInsert b.time b st.blocksByTime
        blocksByTimeMulti := multiInsert b.time b st.blocksByTimeMulti
        nDupeTimes := st.nDupeTimes
        logs := match mapGet b.height st.blocks with
                | some old => st.logs ++ [LogEntry.dupeHeight b old]
                | none => st.logs } with hst1
    have hlt1 : ∀ p ∈ st1.blocksByTime, ∀ b2 ∈ rest, p.1 < b2.time := by
      intro p hp b2 hb2
      rw [hst1] at hp
      simp only [hins] at hp
      rcases List.mem_append.mp hp with hold | hnew
      · exact hlt p hold b2 (List.mem_cons_of_mem _ hb2)
      · have : p = (b.time, b) := by simpa using hnew
        rw [this]
        exact hpw.1 b2.time (List.mem_map_of_mem Block.time hb2)
    obtain ⟨st2, hrun, hbytime, hdupe⟩ := ih st1 hlt1 hpw.2
    refine ⟨st2, ?_, ?_, ?_⟩
    · simp only [List.map_cons, processList, processRec_rawOf_newTime st b hget, ← hst1, hrun]
    · rw [hbytime, hst1]
      simp [hins]
    · rw [hdupe, hst1]

/-! ### Helper lemmas about the statistics pass -/

theorem statsStepPure_last (n : Int) (acc : StatsAcc) (b : Block) :
    (statsStepPure n acc b).last = b.time := by
  unfold statsStepPure
  split
  · split <;> rfl
  · rfl

/-- When no previous time is available the step only records the time. -/
theorem statsStepPure_skip (n : Int) (acc : StatsAcc) (b : Block)
    (hl : ¬ acc.last > -1) :
    statsStepPure n acc b = { acc with last := b.time } := by
  simp only [statsStepPure, if_neg hl]

/-- The step with a previous time available, written field by field. -/
theorem statsStepPure_hit (n : Int) (acc : StatsAcc) (b : Block)
    (hl : acc.last > -1) :
    statsStepPure n acc b =
      { avg := acc.avg + ((b.time - acc.last : Int) : ℚ) / (if n > 0 then (n : ℚ) else 1)
        last := b.time
        min := if b.time - acc.last < acc.min then b.time - acc.last else acc.min
        max := if b.time - acc.last > acc.max then b.time - acc.last else acc.max
        cutoffdeltasums := acc.cutoffdeltasums +
          (if b.time - acc.last ≥ mycutoff then b.time - acc.last - mycutoff else 0)
        nsums := acc.nsums + (if b.time - acc.last ≥ mycutoff then 1 else 0) } := by
  by_cases hc : b.time - acc.last ≥ mycutoff
  · simp only [statsStepPure, if_pos hl, if_pos hc]
  · simp only [statsStepPure, if_pos hl, if_neg hc, add_zero]

theorem statsStep_eq_pure (n : Int) (acc : StatsAcc) (b : Block)
    (h : 0 ≤ b.time - acc.last ∨ ¬ acc.last > -1) :
    statsStep n acc b = .ok (statsStepPure n acc b) := by
  rcases h with h | h
  · by_cases hl : acc.last > -1
    · simp only [statsStep, statsStepPure, if_pos hl, if_neg (not_lt.mpr h)]
    · simp only [statsStep, statsStepPure, if_neg hl]
  · simp only [statsStep, statsStepPure, if_neg h]

/-- When every delta the pass would compute is non-negative, the fallible
loop agrees with the error-free reference loop. -/
theorem statsLoop_eq_pure (n : Int) :
    ∀ (bs : List Block) (acc : StatsAcc),
      (∀ d ∈ passDeltas acc.last bs, 0 ≤ d) →
      statsLoop n acc bs = .ok (statsLoopPure n acc bs) := by
  intro bs
  induction bs with
  | nil => intro acc _; rfl
  | cons b rest ih =>
    intro acc h
    by_cases hl : acc.last > -1
    · have hd : 0 ≤ b.time - acc.last := by
        apply h
        simp only [passDeltas, if_pos hl]
        exact List.mem_cons_self _ _
      simp only [statsLoop, statsLoopPure, statsStep_eq_pure n acc b (Or.inl hd)]
      apply ih
      intro d hdm
      apply h
      rw [statsStepPure_last] at hdm
      simp only [passDeltas, if_pos hl]
      exact List.mem_cons_of_mem _ hdm
    · simp only [statsLoop, statsLoopPure, statsStep_eq_pure n acc b (Or.inr hl)]
      apply ih
      intro d hdm
      apply h
      rw [statsStepPure_last] at hdm
      simp only [passDeltas, if_neg hl]
      exact hdm

/-- A negative delta anywhere among the deltas the pass computes makes the
loop abort with an error, regardless of its position. -/
theorem statsLoop_err (n : Int) :
    ∀ (bs : List Block) (acc : StatsAcc),
      (∃ d ∈ passDeltas acc.last bs, d < 0) →
      ∃ e, statsLoop n acc bs = .error e := by
  intro bs
  induction bs with
  | nil => intro acc h; simp [passDeltas] at h
  | cons b rest ih =>
    intro acc h
    by_cases hl : acc.last > -1
    · by_cases hd : b.time - acc.last < 0
      · refine ⟨"negative delta", ?_⟩
        simp only [statsLoop, statsStep, if_pos hl, if_pos hd]
      · simp only [statsLoop, statsStep_eq_pure n acc b (Or.inl (not_lt.mp hd))]
        apply ih
        obtain ⟨d, hdm, hdneg⟩ := h
        simp only [passDeltas, if_pos hl, List.mem_cons] at hdm
        rcases hdm with rfl | hdm
        · exact absurd hdneg hd
        · exact ⟨d, by rw [statsStepPure_last]; exact hdm, hdneg⟩
    · simp only [statsLoop, statsStep_eq_pure n acc b (Or.inr hl)]
      apply ih
      obtain ⟨d, hdm, hdneg⟩ := h
      simp only [passDeltas, if_neg hl] at hdm
      exact ⟨d, by rw [statsStepPure_last]; exact hdm, hdneg⟩

/-- A successful run of the fallible loop is the reference loop. -/
theorem statsLoop_ok_elim (n : Int) (bs : List Block) (acc acc2 : StatsAcc)
    (h : statsLoop n acc bs = .ok acc2) :
    acc2 = statsLoopPure n acc bs := by
  by_cases hneg : ∃ d ∈ passDeltas acc.last bs, d < 0
  · obtain ⟨e, he⟩ := statsLoop_err n bs acc hneg
    rw [he] at h
    simp at h
  · push_neg at hneg
    rw [statsLoop_eq_pure n bs acc hneg] at h
    injection h with h
    exact h.symm

/-- Accumulated average over the loop: each computed delta contributes
`delta / nBlocks` (with the zero-denominator guard). -/
theorem statsLoopPure_avg (n : Int) :
    ∀ (bs : List Block) (acc : StatsAcc),
      (statsLoopPure n acc bs).avg =
        acc.avg + ((passDeltas acc.last bs).sum : ℚ) / (if n > 0 then (n : ℚ) else 1) := by
  intro bs
  induction bs with
  | nil => intro acc; simp [statsLoopPure, passDeltas]
  | cons b rest ih =>
    intro acc
    by_cases hl : acc.last > -1
    · simp only [statsLoopPure, ih, statsStepPure_last, statsStepPure_hit n acc b hl,
        passDeltas, if_pos hl, List.sum_cons]
      push_cast
      ring
    · simp only [statsLoopPure, ih, statsStepPure_last, statsStepPure_skip n acc b hl,
        passDeltas, if_neg hl]

/-- Cutoff accumulators over the loop: every computed delta at or above the
cutoff contributes its overage to the sum and one to the count; deltas below
the cutoff contribute to neither. -/
theorem statsLoopPure_cutoff (n : Int) :
    ∀ (bs : List Block) (acc : StatsAcc),
      (statsLoopPure n acc bs).cutoffdeltasums =
        acc.cutoffdeltasums +
          (((passDeltas acc.last bs).filter (fun d => d ≥ mycutoff)).map
            (fun d => d - mycutoff)).sum ∧
      (statsLoopPure n acc bs).nsums =
        acc.nsums + (((passDeltas acc.last bs).filter (fun d => d ≥ mycutoff)).length : Int) := by
  intro bs
  induction bs with
  | nil => intro acc; simp [statsLoopPure, passDeltas]
  | cons b rest ih =>
    intro acc
    obtain ⟨ih1, ih2⟩ := ih (statsStepPure n acc b)
    rw [statsStepPure_last] at ih1 ih2
    by_cases hl : acc.last > -1
    · have hstep := statsStepPure_hit n acc b hl
      by_cases hc : b.time - acc.last ≥ mycutoff
      · have hfil : (passDeltas acc.last (b :: rest)).filter (fun d => d ≥ mycutoff) =
            (b.time - acc.last) :: (passDeltas b.time rest).filter (fun d => d ≥ mycutoff) := by
          simp only [passDeltas, if_pos hl]
          exact List.filter_cons_of_pos (by simpa using hc)
        simp only [hstep, if_pos hc] at ih1 ih2
        constructor
        · simp only [statsLoopPure, hstep, if_pos hc, ih1, hfil, List.map_cons, List.sum_cons]
          omega
        · simp only [statsLoopPure, hstep, if_pos hc, ih2, hfil, List.length_cons]
          push_cast
          omega
      · have hfil : (passDeltas acc.last (b :: rest)).filter (fun d => d ≥ mycutoff) =
            (passDeltas b.time rest).filter (fun d => d ≥ mycutoff) := by
          simp only [passDeltas, if_pos hl]
          exact List.filter_cons_of_neg (by simpa using hc)
        simp only [hstep, if_neg hc, add_zero] at ih1 ih2
        constructor
        · simp only [statsLoopPure, hstep, if_neg hc, add_zero, ih1, hfil]
        · simp only [statsLoopPure, hstep, if_neg hc, add_zero, ih2, hfil]
    · have hstep := statsStepPure_skip n acc b hl
      have hpd : passDeltas acc.last (b :: rest) = passDeltas b.time rest := by
        simp only [passDeltas, if_neg hl]
      simp only [hstep] at ih1 ih2
      constructor
      · simp only [statsLoopPure, hstep, ih1, hpd]
      · simp only [statsLoopPure, hstep, ih2, hpd]

/-- Once the minimum accumulator is 0 it stays 0 through any run whose
computed deltas are all non-negative. -/
theorem statsLoopPure_min_zero (n : Int) :
    ∀ (bs : List Block) (acc : StatsAcc),
      acc.min = 0 → (∀ d ∈ passDeltas acc.last bs, 0 ≤ d) →
      (statsLoopPure n acc bs).min = 0 := by
  intro bs
  induction bs with
  | nil => intro acc h _; simpa [statsLoopPure] using h
  | cons b rest ih =>
    intro acc hmin h
    by_cases hl : acc.last > -1
    · have hd : 0 ≤ b.time - acc.last := by
        apply h
        simp only [passDeltas, if_pos hl]
        exact List.mem_cons_self _ _
      have hstep : (statsStepPure n acc b).min = 0 := by
        rw [statsStepPure_hit n acc b hl]
        simp only [hmin]
        rw [if_neg (not_lt.mpr hd)]
      simp only [statsLoopPure]
      apply ih _ hstep
      intro d hdm
      apply h
      rw [statsStepPure_last] at hdm
      simp only [passDeltas, if_pos hl]
      exact List.mem_cons_of_mem _ hdm
    · simp only [statsLoopPure]
      apply ih
      · rw [statsStepPure_skip n acc b hl]
        exact hmin
      · intro d hdm
        apply h
        rw [statsStepPure_last] at hdm
        simp only [passDeltas, if_neg hl]
        exact hdm

/-- If the pass computes no delta at all, the minimum accumulator is left at
its initial value. -/
theorem statsLoopPure_min_noDelta (n : Int) :
    ∀ (bs : List Block) (acc : StatsAcc),
      passDeltas acc.last bs = [] →
      (statsLoopPure n acc bs).min = acc.min := by
  intro bs
  induction bs with
  | nil => intro acc _; rfl
  | cons b rest ih =>
    intro acc h
    by_cases hl : acc.last > -1
    · simp only [passDeltas, if_pos hl] at h
      exact absurd h (List.cons_ne_nil _ _)
    · simp only [passDeltas, if_neg hl] at h
      simp only [statsLoopPure]
      rw [ih (statsStepPure n acc b) (by rw [statsStepPure_last]; exact h),
        statsStepPure_skip n acc b hl]

/-- Destructor for a successful `printStatsAndExit`. -/
theorem printStats_ok_elim (st : MainState) (s : Stats)
    (h : printStatsAndExit st = .ok s) :
    ∃ acc, statsLoop ((st.blocksByTime.length : Int) + st.nDupeTimes)
        (initAcc st.nDupeTimes) (st.blocksByTime.map Prod.snd) = .ok acc ∧
      s = ⟨(st.blocksByTime.length : Int) + st.nDupeTimes,
        acc.avg, acc.min, acc.max, acc.cutoffdeltasums, acc.nsums⟩ := by
  unfold printStatsAndExit at h
  cases hsl : statsLoop ((st.blocksByTime.length : Int) + st.nDupeTimes)
      (initAcc st.nDupeTimes) (st.blocksByTime.map Prod.snd) with
  | error e => rw [hsl] at h; simp [Except.map] at h
  | ok acc =>
    rw [hsl] at h
    simp only [Except.map] at h
    injection h with h
    exact ⟨acc, rfl, h.symm⟩

/-- With a previous time above the sentinel and non-negative block times, the
pass computes exactly the consecutive differences. -/
theorem passDeltas_eq_deltasFrom :
    ∀ (bs : List Block) (last : Int), -1 < last → (∀ b ∈ bs, 0 ≤ b.time) →
      passDeltas last bs = deltasFrom last bs := by
  intro bs
  induction bs with
  | nil => intro last _ _; rfl
  | cons b rest ih =>
    intro last hl hpos
    have hb : 0 ≤ b.time := hpos b (List.mem_cons_self _ _)
    simp only [passDeltas, deltasFrom, if_pos hl, List.cons.injEq, true_and]
    exact ih b.time (by omega) (fun q hq => hpos q (List.mem_cons_of_mem _ hq))

/-- Starting from the -1 sentinel over non-negative block times, the pass
computes exactly the consecutive gaps of the sequence. -/
theorem passDeltas_eq_gapsOf (bs : List Block) (hpos : ∀ b ∈ bs, 0 ≤ b.time) :
    passDeltas (-1) bs = gapsOf bs := by
  cases bs with
  | nil => rfl
  | cons b rest =>
    simp only [passDeltas, gapsOf, if_neg (lt_irrefl (-1 : Int))]
    exact passDeltas_eq_deltasFrom rest b.time
      (by have := hpos b (List.mem_cons_self _ _); omega)
      (fun q hq => hpos q (List.mem_cons_of_mem _ hq))

/-- Differences along a strictly increasing chain are non-negative. -/
theorem deltasFrom_nonneg :
    ∀ (bs : List Block) (last : Int), List.Chain (· < ·) last (bs.map Block.time) →
      ∀ d ∈ deltasFrom last bs, 0 ≤ d := by
  intro bs
  induction bs with
  | nil => intro last _ d hd; simp [deltasFrom] at hd
  | cons b rest ih =>
    intro last hch d hd
    simp only [List.map_cons, List.chain_cons] at hch
    simp only [deltasFrom, List.mem_cons] at hd
    rcases hd with rfl | hd
    · omega
    · exact ih b.time hch.2 d hd

/-- The consecutive gaps of a strictly-increasing-time sequence are
non-negative. -/
theorem gapsOf_nonneg (bs : List Block)
    (htimes : (bs.map Block.time).Chain' (· < ·)) :
    ∀ d ∈ gapsOf bs, 0 ≤ d := by
  cases bs with
  | nil => intro d hd; simp [gapsOf] at hd
  | cons b rest =>
    intro d hd
    exact deltasFrom_nonneg rest b.time htimes d hd

/-! ### Claim theorems -/

/-- C4: a page whose "blocks" array is non-empty but contains only records
with `main_chain == false` is not fatal: every element is silently skipped,
both indexes (and the whole state) remain unchanged and the run continues;
only an absent or empty "blocks" array is fatal. -/
theorem C4_all_filtered_page_not_fatal (st : MainState) (recs : List RawRec)
    (hne : recs ≠ [])
    (hmain : ∀ r ∈ recs, r.mainChain = false)
    (hmaps : ∀ r ∈ recs, r.isEmptyMap = false) :
    processResults st (Page.obj (some recs)) = .ok st ∧
    processResults st (Page.obj none) = .error "Blocks array not found" ∧
    processResults st (Page.obj (some [])) = .error "Blocks array not found" := by
  cases recs with
  | nil => exact absurd rfl hne
  | cons r rest =>
    refine ⟨?_, rfl, rfl⟩
    show processList st (r :: rest) = .ok st
    exact processList_skip (r :: rest) st hmaps hmain

/-- Witness for C4 at a concrete one-element all-filtered page. -/
theorem C4_witness :
    (([⟨false, 7, true, "h", 9, true, false⟩] : List RawRec) ≠ [] ∧
      (∀ r ∈ ([⟨false, 7, true, "h", 9, true, false⟩] : List RawRec), r.mainChain = false) ∧
      (∀ r ∈ ([⟨false, 7, true, "h", 9, true, false⟩] : List RawRec), r.isEmptyMap = false)) ∧
    (processResults initState (Page.obj (some [⟨false, 7, true, "h", 9, true, false⟩])) =
        .ok initState ∧
      processResults initState (Page.obj none) = .error "Blocks array not found" ∧
      processResults initState (Page.obj (some [])) = .error "Blocks array not found") :=
  ⟨⟨by decide, by decide, by decide⟩,
    C4_all_filtered_page_not_fatal initState [⟨false, 7, true, "h", 9, true, false⟩]
      (by decide) (by decide) (by decide)⟩

/-- C10: the `main_chain == false` skip happens before the numeric-parse
check, so a non-main-chain element is skipped without aborting even when its
height or time conversion failed (its ok flags are unconstrained here); the
fatal "Parse error" path is reachable only for main-chain elements. -/
theorem C10_skip_before_parse (st : MainState) (r : RawRec)
    (hmap : r.isEmptyMap = false) (hmain : r.mainChain = false) :
    processRec st r = .ok st ∧
    (∀ (st2 : MainState) (r2 : RawRec),
      processRec st2 r2 = .error "Parse error" → r2.mainChain = true) := by
  refine ⟨processRec_skip st r hmap hmain, ?_⟩
  intro st2 r2 h
  by_cases he : r2.isEmptyMap
  · simp only [processRec, if_pos he] at h
    simp at h
  · by_cases hm : r2.mainChain
    · exact hm
    · rw [processRec_skip st2 r2 (by simpa using he) (by simpa using hm)] at h
      simp at h

/-- Witness for C10: a record with `main_chain == false` and both numeric
conversions failed is skipped without error. -/
theorem C10_witness :
    ((⟨false, 0, false, "x", 0, false, false⟩ : RawRec).isEmptyMap = false ∧
      (⟨false, 0, false, "x", 0, false, false⟩ : RawRec).mainChain = false) ∧
    (processRec initState ⟨false, 0, false, "x", 0, false, false⟩ = .ok initState ∧
      (∀ (st2 : MainState) (r2 : RawRec),
        processRec st2 r2 = .error "Parse error" → r2.mainChain = true)) :=
  ⟨⟨by decide, by decide⟩,
    C10_skip_before_parse initState ⟨false, 0, false, "x", 0, false, false⟩ rfl rfl⟩

/-- C5: on a state whose by-time index is well formed (each entry's key is
its block's time, keys strictly ascending), `getNext` anchors the request at
`(earliest timestamp in the by-time index) * 1000 - 86400000` when the index
is non-empty, and at the current wall-clock milliseconds when it is empty. -/
theorem C5_anchor (now : Int) (st : MainState)
    (hkeys : ∀ p ∈ st.blocksByTime, p.1 = p.2.time)
    (hsorted : (st.blocksByTime.map Prod.fst).Chain' (· < ·)) :
    (st.blocksByTime = [] → (getNext now st).1 = now) ∧
    (st.blocksByTime ≠ [] →
      ∃ m, m ∈ st.blocksByTime.map Prod.fst ∧
        (∀ k ∈ st.blocksByTime.map Prod.fst, m ≤ k) ∧
        (getNext now st).1 = m * 1000 - 86400000) := by
  cases hbt : st.blocksByTime with
  | nil =>
    refine ⟨fun _ => ?_, fun h => absurd rfl h⟩
    simp [getNext, hbt]
  | cons p rest =>
    obtain ⟨k, b⟩ := p
    constructor
    · intro h
      simp at h
    · intro _
      have hk : k = b.time := hkeys (k, b) (by rw [hbt]; exact List.mem_cons_self _ _)
      refine ⟨k, ?_, ?_, ?_⟩
      · simp
      · intro k2 hk2
        rw [hbt] at hsorted
        simp only [List.map_cons, List.mem_cons] at hk2
        rcases hk2 with rfl | hk2
        · exact le_refl k2
        · simp only [List.map_cons] at hsorted
          have hpw := List.chain'_iff_pairwise.mp hsorted
          exact le_of_lt ((List.pairwise_cons.mp hpw).1 k2 hk2)
      · simp only [getNext, hbt, ← hk, aday_ms]
        norm_num

/-- A concrete well-formed two-entry state, used to witness C5. -/
def twoEntryState : MainState :=
  ⟨[], [(100, ⟨5, "aa", 100⟩), (200, ⟨6, "bb", 200⟩)], [], 0, []⟩

/-- Witness for C5 at a concrete two-entry well-formed index. -/
theorem C5_witness :
    ((∀ p ∈ twoEntryState.blocksByTime, p.1 = p.2.time) ∧
      (twoEntryState.blocksByTime.map Prod.fst).Chain' (· < ·)) ∧
    ((twoEntryState.blocksByTime = [] → (getNext 777 twoEntryState).1 = 777) ∧
      (twoEntryState.blocksByTime ≠ [] →
        ∃ m, m ∈ twoEntryState.blocksByTime.map Prod.fst ∧
          (∀ k ∈ twoEntryState.blocksByTime.map Prod.fst, m ≤ k) ∧
          (getNext 777 twoEntryState).1 = m * 1000 - 86400000)) :=
  ⟨⟨by decide, by simp [twoEntryState]⟩,
    C5_anchor 777 twoEntryState (by decide) (by simp [twoEntryState])⟩

/-- C6: if any consecutive delta computed during the statistics pass over the
time-ordered index is negative, wherever it occurs, the statistics
computation and the whole final phase abort fatally, and neither statistics
nor CSV files are produced. -/
theorem C6_negative_delta_fatal (st : MainState)
    (h : ∃ d ∈ passDeltas (-1) (st.blocksByTime.map Prod.snd), d < 0) :
    ∃ e, finalPhase st = .error e := by
  have hinit : (initAcc st.nDupeTimes).last = -1 := rfl
  obtain ⟨e, he⟩ := statsLoop_err ((st.blocksByTime.length : Int) + st.nDupeTimes)
    (st.blocksByTime.map Prod.snd) (initAcc st.nDupeTimes) (by rw [hinit]; exact h)
  exact ⟨e, by simp only [finalPhase, printStatsAndExit, he, Except.map]⟩

/-- A state whose by-time value sequence steps backward in time (possible
only for a corrupted index; the statistics pass checks for it defensively),
used to witness C6. -/
def backwardsState : MainState :=
  ⟨[], [(100, ⟨1, "a", 100⟩), (5, ⟨2, "b", 5⟩)], [], 0, []⟩

/-- Witness for C6: the pass over `backwardsState` computes the delta
5 - 100 < 0 and the final phase errors out. -/
theorem C6_witness :
    (∃ d ∈ passDeltas (-1) (backwardsState.blocksByTime.map Prod.snd), d < 0) ∧
    (∃ e, finalPhase backwardsState = .error e) :=
  ⟨by decide, C6_negative_delta_fatal backwardsState (by decide)⟩

/-- C3: processing two main-chain records that share a timestamp but differ
in height or hash: the by-time index retains only the later-processed
record, the duplicate-timestamp counter is incremented by exactly 1, and
`totalBlocks` (by-time index size plus the counter) equals 2, the number of
distinct post-filter input records. -/
theorem C3_dupe_timestamp (b1 b2 : Block)
    (ht : b1.time = b2.time)
    (hne : b1.height ≠ b2.height ∨ b1.hash ≠ b2.hash) :
    (processResults initState (Page.obj (some [rawOf b1, rawOf b2]))).map
        MainState.blocksByTime = .ok [(b2.time, b2)] ∧
    (processResults initState (Page.obj (some [rawOf b1, rawOf b2]))).map
        MainState.nDupeTimes = .ok 1 ∧
    (processResults initState (Page.obj (some [rawOf b1, rawOf b2]))).map
        (fun st => (st.blocksByTime.length : Int) + st.nDupeTimes) = .ok 2 := by
  clear hne
  obtain ⟨h1, s1, t1⟩ := b1
  obtain ⟨h2, s2, t2⟩ := b2
  have ht2 : t1 = t2 := ht
  subst ht2
  simp [processResults, processList, processRec, rawOf, mapGet, mapInsert, multiInsert,
    initState, Except.map]

/-- Witness for C3 at two concrete same-timestamp records. -/
theorem C3_witness :
    ((⟨1, "a", 100⟩ : Block).time = (⟨2, "b", 100⟩ : Block).time ∧
      ((⟨1, "a", 100⟩ : Block).height ≠ (⟨2, "b", 100⟩ : Block).height ∨
        (⟨1, "a", 100⟩ : Block).hash ≠ (⟨2, "b", 100⟩ : Block).hash)) ∧
    ((processResults initState (Page.obj (some [rawOf ⟨1, "a", 100⟩, rawOf ⟨2, "b", 100⟩]))).map
        MainState.blocksByTime = .ok [((⟨2, "b", 100⟩ : Block).time, ⟨2, "b", 100⟩)] ∧
      (processResults initState (Page.obj (some [rawOf ⟨1, "a", 100⟩, rawOf ⟨2, "b", 100⟩]))).map
        MainState.nDupeTimes = .ok 1 ∧
      (processResults initState (Page.obj (some [rawOf ⟨1, "a", 100⟩, rawOf ⟨2, "b", 100⟩]))).map
        (fun st => (st.blocksByTime.length : Int) + st.nDupeTimes) = .ok 2) :=
  ⟨⟨rfl, Or.inl (by decide)⟩,
    C3_dupe_timestamp ⟨1, "a", 100⟩ ⟨2, "b", 100⟩ rfl (Or.inl (by decide))⟩

/-- C7: processing two main-chain records that share a height but differ in
hash or time: the by-height index retains only the later-processed record, a
duplicate-height diagnostic is emitted exactly once and it carries the
pre-overwrite old record; a height collision alone (times different) leaves
the duplicate-timestamp counter untouched. -/
theorem C7_dupe_height (b1 b2 : Block)
    (hh : b1.height = b2.height)
    (hne : b1.hash ≠ b2.hash ∨ b1.time ≠ b2.time) :
    (processResults initState (Page.obj (some [rawOf b1, rawOf b2]))).map
        MainState.blocks = .ok [(b2.height, b2)] ∧
    (processResults initState (Page.obj (some [rawOf b1, rawOf b2]))).map
        (fun st => (st.logs.filter isDupeHeightLog).length) = .ok 1 ∧
    (processResults initState (Page.obj (some [rawOf b1, rawOf b2]))).map
        (fun st => st.logs.head?) = .ok (some (LogEntry.dupeHeight b2 b1)) ∧
    (b1.time ≠ b2.time →
      (processResults initState (Page.obj (some [rawOf b1, rawOf b2]))).map
        MainState.nDupeTimes = .ok 0) := by
  clear hne
  obtain ⟨h1, s1, t1⟩ := b1
  obtain ⟨h2, s2, t2⟩ := b2
  have hh2 : h1 = h2 := hh
  subst hh2
  by_cases htt : t2 = t1
  · subst htt
    simp [processResults, processList, processRec, rawOf, mapGet, mapInsert, multiInsert,
      initState, Except.map, isDupeHeightLog]
  · simp [processResults, processList, processRec, rawOf, mapGet, mapInsert, multiInsert,
      initState, Except.map, isDupeHeightLog, htt]

/-- Witness for C7 at two concrete same-height records. -/
theorem C7_witness :
    ((⟨5, "a", 100⟩ : Block).height = (⟨5, "b", 200⟩ : Block).height ∧
      ((⟨5, "a", 100⟩ : Block).hash ≠ (⟨5, "b", 200⟩ : Block).hash ∨
        (⟨5, "a", 100⟩ : Block).time ≠ (⟨5, "b", 200⟩ : Block).time)) ∧
    ((processResults initState (Page.obj (some [rawOf ⟨5, "a", 100⟩, rawOf ⟨5, "b", 200⟩]))).map
        MainState.blocks = .ok [((⟨5, "b", 200⟩ : Block).height, ⟨5, "b", 200⟩)] ∧
      (processResults initState (Page.obj (some [rawOf ⟨5, "a", 100⟩, rawOf ⟨5, "b", 200⟩]))).map
        (fun st => (st.logs.filter isDupeHeightLog).length) = .ok 1 ∧
      (processResults initState (Page.obj (some [rawOf ⟨5, "a", 100⟩, rawOf ⟨5, "b", 200⟩]))).map
        (fun st => st.logs.head?) =
          .ok (some (LogEntry.dupeHeight ⟨5, "b", 200⟩ ⟨5, "a", 100⟩)) ∧
      ((⟨5, "a", 100⟩ : Block).time ≠ (⟨5, "b", 200⟩ : Block).time →
        (processResults initState (Page.obj (some [rawOf ⟨5, "a", 100⟩, rawOf ⟨5, "b", 200⟩]))).map
          MainState.nDupeTimes = .ok 0)) :=
  ⟨⟨rfl, Or.inl (by decide)⟩,
    C7_dupe_height ⟨5, "a", 100⟩ ⟨5, "b", 200⟩ rfl (Or.inl (by decide))⟩

/-- C8: on any successful statistics pass, the cutoff is the fixed 450
seconds, `cutoffdeltasums` is the sum of `(delta - 450)` over exactly the
computed deltas at or above the cutoff, `nsums` counts exactly those deltas
(deltas below the cutoff contribute to neither), and the reported
mean-overage value is that sum divided by that count. -/
theorem C8_cutoff_overage (st : MainState) (s : Stats)
    (h : printStatsAndExit st = .ok s) :
    mycutoff = 450 ∧
    s.cutoffdeltasums =
      (((passDeltas (-1) (st.blocksByTime.map Prod.snd)).filter (fun d => d ≥ mycutoff)).map
        (fun d => d - mycutoff)).sum ∧
    s.nsums = ((((passDeltas (-1) (st.blocksByTime.map Prod.snd)).filter
        (fun d => d ≥ mycutoff)).length : Int)) ∧
    meanOverage s =
      (((((passDeltas (-1) (st.blocksByTime.map Prod.snd)).filter (fun d => d ≥ mycutoff)).map
        (fun d => d - mycutoff)).sum : ℚ)) /
      ((((passDeltas (-1) (st.blocksByTime.map Prod.snd)).filter
        (fun d => d ≥ mycutoff)).length : ℚ)) := by
  obtain ⟨acc, hloop, hs⟩ := printStats_ok_elim st s h
  have hpure := statsLoop_ok_elim _ _ _ _ hloop
  subst hpure
  obtain ⟨hc1, hc2⟩ := statsLoopPure_cutoff ((st.blocksByTime.length : Int) + st.nDupeTimes)
    (st.blocksByTime.map Prod.snd) (initAcc st.nDupeTimes)
  have hcds : (initAcc st.nDupeTimes).cutoffdeltasums = 0 := rfl
  have hns : (initAcc st.nDupeTimes).nsums = 0 := rfl
  have hlast : (initAcc st.nDupeTimes).last = -1 := rfl
  rw [hcds, hlast, zero_add] at hc1
  rw [hns, hlast, zero_add] at hc2
  subst hs
  refine ⟨rfl, by simpa using hc1, by simpa using hc2, ?_⟩
  simp only [meanOverage, hc1, hc2]
  push_cast
  ring

/-- A concrete state with a single by-time entry, used to witness C8. -/
def oneEntryState : MainState := ⟨[], [(50, ⟨3, "c", 50⟩)], [], 0, []⟩

/-- Witness for C8 at a concrete one-entry state (no delta is computed, so
both cutoff accumulators stay 0). -/
theorem C8_witness :
    printStatsAndExit oneEntryState = .ok ⟨1, 0, LONG_MAX, -1, 0, 0⟩ ∧
    (mycutoff = 450 ∧
      (⟨1, 0, LONG_MAX, -1, 0, 0⟩ : Stats).cutoffdeltasums =
        (((passDeltas (-1) (oneEntryState.blocksByTime.map Prod.snd)).filter
            (fun d => d ≥ mycutoff)).map (fun d => d - mycutoff)).sum ∧
      (⟨1, 0, LONG_MAX, -1, 0, 0⟩ : Stats).nsums =
        ((((passDeltas (-1) (oneEntryState.blocksByTime.map Prod.snd)).filter
            (fun d => d ≥ mycutoff)).length : Int)) ∧
      meanOverage ⟨1, 0, LONG_MAX, -1, 0, 0⟩ =
        (((((passDeltas (-1) (oneEntryState.blocksByTime.map Prod.snd)).filter
            (fun d => d ≥ mycutoff)).map (fun d => d - mycutoff)).sum : ℚ)) /
        ((((passDeltas (-1) (oneEntryState.blocksByTime.map Prod.snd)).filter
            (fun d => d ≥ mycutoff)).length : ℚ))) :=
  ⟨rfl, C8_cutoff_overage oneEntryState ⟨1, 0, LONG_MAX, -1, 0, 0⟩ rfl⟩

/-- C9: on any successful statistics pass, if the duplicate-timestamp counter
is nonzero the minimum-delta accumulator was initialized to 0 and the
reported minimum delta is 0, however large every observed gap is; if the
counter is zero and no delta is ever computed, the sentinel LONG_MAX is
reported as the minimum. -/
theorem C9_min_sentinel (st : MainState) (s : Stats)
    (h : printStatsAndExit st = .ok s) :
    (st.nDupeTimes ≠ 0 → s.min = 0) ∧
    (st.nDupeTimes = 0 → passDeltas (-1) (st.blocksByTime.map Prod.snd) = [] →
      s.min = LONG_MAX) := by
  obtain ⟨acc, hloop, hs⟩ := printStats_ok_elim st s h
  have hnonneg : ∀ d ∈ passDeltas (initAcc st.nDupeTimes).last
      (st.blocksByTime.map Prod.snd), 0 ≤ d := by
    intro d hd
    by_contra hneg
    obtain ⟨e, he⟩ := statsLoop_err ((st.blocksByTime.length : Int) + st.nDupeTimes)
      (st.blocksByTime.map Prod.snd) (initAcc st.nDupeTimes) ⟨d, hd, not_le.mp hneg⟩
    rw [he] at hloop
    simp at hloop
  have hpure := statsLoop_ok_elim _ _ _ _ hloop
  subst hpure
  subst hs
  constructor
  · intro hdupe
    have hinit : (initAcc st.nDupeTimes).min = 0 := by simp [initAcc, hdupe]
    have hz := statsLoopPure_min_zero ((st.blocksByTime.length : Int) + st.nDupeTimes)
      (st.blocksByTime.map Prod.snd) (initAcc st.nDupeTimes) hinit hnonneg
    simpa using hz
  · intro hdupe hnd
    have hinit : (initAcc st.nDupeTimes).min = LONG_MAX := by simp [initAcc, hdupe]
    have hu := statsLoopPure_min_noDelta ((st.blocksByTime.length : Int) + st.nDupeTimes)
      (st.blocksByTime.map Prod.snd) (initAcc st.nDupeTimes) hnd
    simpa using hu.trans hinit

/-- A concrete state with an empty by-time index but a nonzero
duplicate-timestamp counter, used to witness C9. -/
def dupeCounterState : MainState := ⟨[], [], [], 1, []⟩

/-- Witness for C9: with the counter at 1 and no entries, the reported
minimum is 0. -/
theorem C9_witness :
    printStatsAndExit dupeCounterState = .ok ⟨1, 0, 0, -1, 0, 0⟩ ∧
    ((dupeCounterState.nDupeTimes ≠ 0 → (⟨1, 0, 0, -1, 0, 0⟩ : Stats).min = 0) ∧
      (dupeCounterState.nDupeTimes = 0 →
        passDeltas (-1) (dupeCounterState.blocksByTime.map Prod.snd) = [] →
        (⟨1, 0, 0, -1, 0, 0⟩ : Stats).min = LONG_MAX)) :=
  ⟨rfl, C9_min_sentinel dupeCounterState ⟨1, 0, 0, -1, 0, 0⟩ rfl⟩

/-- C2 (amended): on a non-empty input sequence of main-chain blocks with
strictly increasing (non-negative) unique timestamps and unique heights,
after processing, `totalBlocks` equals the size of the by-time index (the
duplicate-timestamp counter stays 0), and the average delta computed by the
statistics engine equals the SUM of the consecutive timestamp gaps divided
by `totalBlocks` (the source accumulates `delta / nBlocks`, so the
denominator is the block count, not the gap count). -/
theorem C2_amended_avg (bs : List Block) (hne : bs ≠ [])
    (htimes : (bs.map Block.time).Chain' (· < ·))
    (hheights : (bs.map Block.height).Nodup)
    (hpos : ∀ b ∈ bs, 0 ≤ b.time) :
    ∃ st s,
      processResults initState (Page.obj (some (bs.map rawOf))) = .ok st ∧
      printStatsAndExit st = .ok s ∧
      st.nDupeTimes = 0 ∧
      st.blocksByTime.length = bs.length ∧
      s.nBlocks = (st.blocksByTime.length : Int) ∧
      s.avg = ((gapsOf bs).sum : ℚ) / (bs.length : ℚ) := by
  clear hheights
  have hpw : (bs.map Block.time).Pairwise (· < ·) := List.chain'_iff_pairwise.mp htimes
  obtain ⟨st, hrun, hbt, hdupe⟩ :=
    processList_incr bs initState (by intro p hp; simp [initState] at hp) hpw
  have hdupe0 : st.nDupeTimes = 0 := by rw [hdupe]; rfl
  have hie : (bs.map rawOf).isEmpty = false := by
    cases bs with
    | nil => exact absurd rfl hne
    | cons b rest => rfl
  have hproc : processResults initState (Page.obj (some (bs.map rawOf))) = .ok st := by
    simpa [processResults, hie] using hrun
  have hvals : st.blocksByTime.map Prod.snd = bs := by
    rw [hbt]
    simp only [initState, List.nil_append, List.map_map]
    exact List.map_id'' (fun x => rfl) bs
  have hlen : st.blocksByTime.length = bs.length := by
    rw [hbt]
    simp [initState]
  have hlast : (initAcc st.nDupeTimes).last = -1 := rfl
  have hpd : passDeltas (-1) bs = gapsOf bs := passDeltas_eq_gapsOf bs hpos
  have hok : statsLoop ((st.blocksByTime.length : Int) + st.nDupeTimes)
      (initAcc st.nDupeTimes) bs =
      .ok (statsLoopPure ((st.blocksByTime.length : Int) + st.nDupeTimes)
        (initAcc st.nDupeTimes) bs) := by
    apply statsLoop_eq_pure
    rw [hlast, hpd]
    exact gapsOf_nonneg bs htimes
  have hstats : printStatsAndExit st =
      .ok ⟨(st.blocksByTime.length : Int) + st.nDupeTimes,
        (statsLoopPure ((st.blocksByTime.length : Int) + st.nDupeTimes)
          (initAcc st.nDupeTimes) bs).avg,
        (statsLoopPure ((st.blocksByTime.length : Int) + st.nDupeTimes)
          (initAcc st.nDupeTimes) bs).min,
        (statsLoopPure ((st.blocksByTime.length : Int) + st.nDupeTimes)
          (initAcc st.nDupeTimes) bs).max,
        (statsLoopPure ((st.blocksByTime.length : Int) + st.nDupeTimes)
          (initAcc st.nDupeTimes) bs).cutoffdeltasums,
        (statsLoopPure ((st.blocksByTime.length : Int) + st.nDupeTimes)
          (initAcc st.nDupeTimes) bs).nsums⟩ := by
    simp only [printStatsAndExit, hvals, hok, Except.map]
  have hNval : (st.blocksByTime.length : Int) + st.nDupeTimes = (bs.length : Int) := by
    rw [hdupe0, hlen, add_zero]
  have hNpos : (st.blocksByTime.length : Int) + st.nDupeTimes > 0 := by
    rw [hNval]
    exact_mod_cast List.length_pos.mpr hne
  have havg : (statsLoopPure ((st.blocksByTime.length : Int) + st.nDupeTimes)
      (initAcc st.nDupeTimes) bs).avg = ((gapsOf bs).sum : ℚ) / (bs.length : ℚ) := by
    rw [statsLoopPure_avg]
    have h0 : (initAcc st.nDupeTimes).avg = 0 := rfl
    rw [h0, hlast, hpd, zero_add, if_pos hNpos, hNval]
    norm_cast
  exact ⟨st, _, hproc, hstats, hdupe0, hlen, by rw [hdupe0, add_zero], havg⟩

/-- The three-block input witnessing that the computed average is the gap sum
divided by the block count, not the arithmetic mean of the gaps. -/
def C2blocks : List Block := [⟨1, "a", 0⟩, ⟨2, "b", 10⟩, ⟨3, "c", 30⟩]

/-- C2 (counterexample to the claim as stated): the input `C2blocks`
satisfies every hypothesis of the claim (strictly increasing unique
timestamps, unique heights, counter stays 0), its consecutive gaps are 10
and 20 with arithmetic mean 15, yet the statistics engine computes
average (10 + 20) / 3 = 10 ≠ 15. -/
theorem C2_counterexample :
    C2blocks ≠ [] ∧
    (C2blocks.map Block.time).Chain' (· < ·) ∧
    (C2blocks.map Block.height).Nodup ∧
    (∀ b ∈ C2blocks, 0 ≤ b.time) ∧
    (processResults initState (Page.obj (some (C2blocks.map rawOf)))).map
      MainState.nDupeTimes = .ok 0 ∧
    ((processResults initState (Page.obj (some (C2blocks.map rawOf)))).bind
      printStatsAndExit).map Stats.avg = .ok 10 ∧
    ((gapsOf C2blocks).sum : ℚ) / ((gapsOf C2blocks).length : ℚ) = 15 ∧
    (10 : ℚ) ≠ 15 := by
  refine ⟨by decide, by simp [C2blocks], by decide, by decide, rfl, ?_, ?_, by norm_num⟩
  · have hrun : processResults initState (Page.obj (some (C2blocks.map rawOf))) =
        .ok ⟨[(1, ⟨1, "a", 0⟩), (2, ⟨2, "b", 10⟩), (3, ⟨3, "c", 30⟩)],
          [(0, ⟨1, "a", 0⟩), (10, ⟨2, "b", 10⟩), (30, ⟨3, "c", 30⟩)],
          [(0, ⟨1, "a", 0⟩), (10, ⟨2, "b", 10⟩), (30, ⟨3, "c", 30⟩)], 0, []⟩ := rfl
    rw [hrun]
    show (printStatsAndExit _).map Stats.avg = .ok 10
    simp only [printStatsAndExit, statsLoop, statsStep, initAcc, mycutoff, LONG_MAX,
      Except.map, List.map_cons, List.map_nil, List.length_cons, List.length_nil]
    norm_num
  · norm_num [C2blocks, gapsOf, deltasFrom]

/-- The two-block input used to witness the amended C2. -/
def C2wBlocks : List Block := [⟨1, "a", 0⟩, ⟨2, "b", 600⟩]

/-- Witness for the amended C2 at a concrete two-block input. -/
theorem C2_witness :
    (C2wBlocks ≠ [] ∧
      (C2wBlocks.map Block.time).Chain' (· < ·) ∧
      (C2wBlocks.map Block.height).Nodup ∧
      (∀ b ∈ C2wBlocks, 0 ≤ b.time)) ∧
    (∃ st s,
      processResults initState (Page.obj (some (C2wBlocks.map rawOf))) = .ok st ∧
      printStatsAndExit st = .ok s ∧
      st.nDupeTimes = 0 ∧
      st.blocksByTime.length = C2wBlocks.length ∧
      s.nBlocks = (st.blocksByTime.length : Int) ∧
      s.avg = ((gapsOf C2wBlocks).sum : ℚ) / (C2wBlocks.length : ℚ)) :=
  ⟨⟨by decide, by simp [C2wBlocks], by decide, by decide⟩,
    C2_amended_avg C2wBlocks (by decide) (by simp [C2wBlocks]) (by decide) (by decide)⟩

/-- The two-block input (heights ascending, times descending) on which the
exporter's File B comes out time-unsorted. -/
def C1blocks : List Block := [⟨1, "aa", 200⟩, ⟨2, "bb", 100⟩]

/-- C1: `saveCsv` writes File B (blocks_sorted_by_timestamp.csv) by iterating
the BY-HEIGHT map `blocks`, not the by-time index: on `C1blocks` the emitted
rows are in height order (200,1,aa then 100,2,bb), not in ascending
timestamp order as the file name, the header and the spec describe
(100,2,bb then 200,1,aa). -/
theorem C1_fileB_height_order :
    (processResults initState (Page.obj (some (C1blocks.map rawOf)))).map fileB =
      .ok ["#BlockTimeUTC,BlockHeight,BlockHash", "200,1,aa", "100,2,bb"] ∧
    (processResults initState (Page.obj (some (C1blocks.map rawOf)))).map fileBSpec =
      .ok ["#BlockTimeUTC,BlockHeight,BlockHash", "100,2,bb", "200,1,aa"] ∧
    (processResults initState (Page.obj (some (C1blocks.map rawOf)))).map fileB ≠
      (processResults initState (Page.obj (some (C1blocks.map rawOf)))).map fileBSpec := by
  have h1 : (processResults initState (Page.obj (some (C1blocks.map rawOf)))).map fileB =
      .ok ["#BlockTimeUTC,BlockHeight,BlockHash", "200,1,aa", "100,2,bb"] := rfl
  have h2 : (processResults initState (Page.obj (some (C1blocks.map rawOf)))).map fileBSpec =
      .ok ["#BlockTimeUTC,BlockHeight,BlockHash", "100,2,bb", "200,1,aa"] := rfl
  refine ⟨h1, h2, ?_⟩
  rw [h1, h2]
  simp only [ne_eq, Except.ok.injEq]
  decide

end BlockChainGrok
